import Mathlib

set_option maxRecDepth 8192

/-!
Verification of the botstats threat-analysis core.

The definitions below are a shallow embedding of `threat_analyzer.py` and the
blocking phase of `stats.py`.  External collaborators that are not part of the
repository sources (`log_parser`, `ufw_handler`, the strategy modules and the
Python standard library) are modelled as parameters, or — where a claim needs
their concrete behaviour — as definitions faithful to the documented behaviour.
Timestamps are modelled as integer seconds, rates as rational numbers.
-/

namespace BotStats

/-! ## Rate computation (`ThreatAnalyzer.identify_threats`, per-address step)

Mirrors:
```
times = sorted(info['times'])
total_requests = len(times)
rpm = 0
time_span = 0
if total_requests >= 2:
    time_span = (times[-1] - times[0]).total_seconds()
    if time_span > 0:
        rpm = (total_requests / (time_span / 60))
```
-/

/-- The requests-per-minute computation of `identify_threats`: sort the
timestamps, and when there are at least two of them and the span between the
last and first sorted timestamp is positive, divide the count by the span in
minutes; otherwise the rate is `0`. -/
def computeRpm (times : List Int) : ℚ :=
  let sortedTimes := times.mergeSort (fun a b => decide (a ≤ b))
  let total := times.length
  if 2 ≤ total then
    let span := sortedTimes.getLast?.getD 0 - sortedTimes.head?.getD 0
    if 0 < span then (total : ℚ) / ((span : ℚ) / 60) else 0
  else 0

/-- `time_span` as computed by `identify_threats`: difference between the last
and the first sorted timestamp when there are at least two, else `0`. -/
def computeSpan (times : List Int) : Int :=
  let sortedTimes := times.mergeSort (fun a b => decide (a ≤ b))
  if 2 ≤ times.length then sortedTimes.getLast?.getD 0 - sortedTimes.head?.getD 0
  else 0

/-- The suspicion flag of `identify_threats`:
`is_suspicious_by_rpm = rpm > self.rpm_threshold`. -/
def isSuspicious (threshold : ℚ) (times : List Int) : Bool :=
  decide (threshold < computeRpm times)

/-- Span between the latest and the earliest timestamp of the record
(specification-side description, to be compared with `computeSpan`). -/
def spanOf (times : List Int) : Int :=
  (times.max?.getD 0) - (times.min?.getD 0)

/-! ## Windowed ingestion scanner (`ThreatAnalyzer.analyze_log_file`)

The log parser (`parse_log_line`, external to the sources) and the timestamp
parse (`datetime.strptime`, which may raise `ValueError`) are modelled by the
outcome they produce for each line; the whitelist test (`is_ip_in_whitelist`,
external) is a Boolean parameter. -/

/-- Outcome of parsing one log line: `none` when `parse_log_line` returns
`None`, `some (ip, none)` when the date field fails to parse, and
`some (ip, some dt)` for a well-formed entry. -/
abbrev LineOutcome := Option (String × Option Int)

/-- One aggregated log entry: source address and timestamp. -/
structure Entry where
  ip : String
  dt : Int
deriving DecidableEq

/-- The entry carried by a line outcome, if both the line and its date parsed. -/
def parsedEntry : LineOutcome → Option Entry
  | some (ip, some dt) => some ⟨ip, dt⟩
  | _ => none

/-- Forward scan (`analyze_log_file` with `start_date=None`): process every
line in original order, skipping unparseable lines, malformed dates and
whitelisted addresses; the result is the sequence of entries appended to
`ip_data`, in append order. -/
def forwardScan (wl : String → Bool) : List LineOutcome → List Entry
  | [] => []
  | l :: rest =>
    match l with
    | some (ip, some dt) =>
      if wl ip then forwardScan wl rest else ⟨ip, dt⟩ :: forwardScan wl rest
    | _ => forwardScan wl rest

/-- Body of the reverse scan loop, acting on lines already in last-to-first
order: unparseable lines and malformed dates are skipped, the loop breaks at
the first parsed entry older than `startDate`, and the whitelist test runs
after the date check. -/
def reverseScanAux (wl : String → Bool) (startDate : Int) :
    List LineOutcome → List Entry
  | [] => []
  | l :: rest =>
    match l with
    | some (ip, some dt) =>
      if dt < startDate then []
      else if wl ip then reverseScanAux wl startDate rest
      else ⟨ip, dt⟩ :: reverseScanAux wl startDate rest
    | _ => reverseScanAux wl startDate rest

/-- `analyze_log_file` with a `start_date`: `_read_lines_reverse` yields the
source lines from last to first and the loop body processes them in that
order. -/
def reverseScan (wl : String → Bool) (startDate : Int)
    (lines : List LineOutcome) : List Entry :=
  reverseScanAux wl startDate lines.reverse

/-! ## Threat identification (`ThreatAnalyzer.identify_threats`)

`get_subnet` and `calculate_danger_score` live in `log_parser` (external to the
sources) and are taken as parameters.  `has_suspicious_ua` is hard-coded
`False` in the source, so the danger score is always evaluated at `false`.
`ip_data` is a Python dict and is modelled as an association list in insertion
order. -/

/-- The per-address metric dict built in the first loop of
`identify_threats` (minus the constant `has_suspicious_ua=False` /
`suspicious_ua=""` fields and the redundant `is_suspicious_by_rpm` flag). -/
structure IpInfo where
  ip : String
  rpm : ℚ
  total_requests : Nat
  time_span : Int
  danger_score : ℚ
deriving DecidableEq, Inhabited

/-- The metric computed for one address: rate, count, span and danger score
(`calculate_danger_score(rpm, total_requests, has_suspicious_ua=False)`). -/
def mkInfo (ds : ℚ → Nat → Bool → ℚ) (ip : String) (times : List Int) :
    IpInfo :=
  { ip := ip
    rpm := computeRpm times
    total_requests := times.length
    time_span := computeSpan times
    danger_score := ds (computeRpm times) times.length false }

/-- `subnet_data[subnet].append(ip_info)` on a `defaultdict(list)`: append the
value to the group with the given key, creating the group at the end on first
use (Python dicts preserve insertion order). -/
def addToGroups {κ ν : Type} [DecidableEq κ] :
    List (κ × List ν) → κ → ν → List (κ × List ν)
  | [], k, v => [(k, [v])]
  | (k', vs) :: rest, k, v =>
    if k' = k then (k', vs ++ [v]) :: rest
    else (k', vs) :: addToGroups rest k v

/-- First loop of `identify_threats` in `ip_data` order: addresses with no
timestamps are skipped; a suspicious address whose subnet is available is
mapped to its `(subnet, ip_info)` pair. -/
def suspPairs (threshold : ℚ) (ds : ℚ → Nat → Bool → ℚ)
    (gsub : String → Option String) (ipData : List (String × List Int)) :
    List (String × IpInfo) :=
  ipData.filterMap (fun p =>
    if p.2.length = 0 then none
    else if isSuspicious threshold p.2 then
      match gsub p.1 with
      | some s => some (s, mkInfo ds p.1 p.2)
      | none => none
    else none)

/-- The `subnet_data` dict after the first loop of `identify_threats`. -/
def subnetGroups (threshold : ℚ) (ds : ℚ → Nat → Bool → ℚ)
    (gsub : String → Option String) (ipData : List (String × List Int)) :
    List (String × List IpInfo) :=
  (suspPairs threshold ds gsub ipData).foldl
    (fun g p => addToGroups g p.1 p.2) []

/-- A threat dict produced by `identify_threats`: either a `subnet`-type
threat (id, summed danger, summed requests, member count, sorted details) or
an `ip`-type threat carrying the single member metric (and no
`ip_count`/`details` keys). -/
inductive ThreatRec
  | subnet (id : String) (danger_score : ℚ) (total_requests : Nat)
      (ip_count : Nat) (details : List IpInfo)
  | ip (info : IpInfo)
deriving DecidableEq

/-- `threat['danger_score']`. -/
def ThreatRec.danger : ThreatRec → ℚ
  | .subnet _ d _ _ _ => d
  | .ip i => i.danger_score

/-- `sorted(ip_infos, key=lambda x: x['danger_score'], reverse=True)`
(Python `sorted` is stable, as is `mergeSort`). -/
def sortInfosDesc (infos : List IpInfo) : List IpInfo :=
  infos.mergeSort (fun a b => decide (b.danger_score ≤ a.danger_score))

/-- Second loop body of `identify_threats`: a group with more than one member
becomes a `subnet`-type threat with summed requests and danger and members
sorted descending by danger score; otherwise an `ip`-type threat is built
directly from the single member metric. -/
def mkThreat (s : String) (infos : List IpInfo) : ThreatRec :=
  if 1 < infos.length then
    .subnet s ((infos.map IpInfo.danger_score).sum)
      ((infos.map IpInfo.total_requests).sum) infos.length (sortInfosDesc infos)
  else .ip infos.headI

/-- `identify_threats`: group suspicious addresses by subnet, unify each group
into a threat, and sort all threats descending by danger score. -/
def identifyThreats (threshold : ℚ) (ds : ℚ → Nat → Bool → ℚ)
    (gsub : String → Option String) (ipData : List (String × List Int)) :
    List ThreatRec :=
  ((subnetGroups threshold ds gsub ipData).map
    (fun g => mkThreat g.1 g.2)).mergeSort
      (fun a b => decide (b.danger ≤ a.danger))

/-- The member addresses reported by one threat group. -/
def ThreatRec.memberIps : ThreatRec → List String
  | .subnet _ _ _ _ details => details.map IpInfo.ip
  | .ip i => [i.ip]

/-- Fixture danger-score function used to instantiate parameterized
theorems on concrete inputs. -/
def dsLin : ℚ → Nat → Bool → ℚ := fun r n _ => r + n

/-- Fixture subnet map used to instantiate parameterized theorems. -/
def gsubConst : String → Option String := fun _ => some "10.0.0.0/24"

/-! ## Blocking phase (`stats.py`, `main`, `--block` branch)

The UFW collaborator (`ufw_handler.UFWManager.block_target`, external to the
sources) is modelled as a Boolean function `accept` on targets; strategy
scores (computed by the external `strategies.*` modules) are carried on each
threat. -/

/-- An `ipaddress` network object: an IPv4 network given by its four octets
and prefix length, or some other (IPv6) network identified abstractly. -/
inductive NetId
  | v4 (a b c d : Nat) (plen : Nat)
  | v6 (tag : String)
deriving DecidableEq

/-- `isinstance(subnet, ipaddress.IPv4Network) and subnet.prefixlen == 24`
followed by `subnet.supernet(new_prefix=16)` (whose `except ValueError`
branch maps to `none`). -/
def sup16 : NetId → Option NetId
  | .v4 a b _ _ 24 => some (.v4 a b 0 0 16)
  | _ => none

/-- `threat['id']`: a network object for `subnet`-type threats, an address
object for `ip`-type threats. -/
inductive ThreatId
  | net (n : NetId)
  | addr (ip : String)
deriving DecidableEq

/-- A threat dict as the blocking phase sees it after the strategy loop: id,
strategy score, blocking decision, and the `ip_count` and `details` entries
(`none` / `[]` when the keys are absent, as on `ip`-type threats). -/
structure BThreat where
  id : ThreatId
  score : ℚ
  should_block : Bool
  ip_count : Option Nat
  details : List IpInfo
deriving DecidableEq

/-- A block target handed to the UFW collaborator: a network or an address. -/
inductive Target
  | net (n : NetId)
  | addr (ip : String)
deriving DecidableEq

/-- `blockable_threats`: the threats the strategy marked for blocking, in
original threat order. -/
def blockableThreats (threats : List BThreat) : List BThreat :=
  threats.filter (fun t => t.should_block)

/-- The /16 supernet key of a blockable threat, when its id is an IPv4 /24
network. -/
def supKey (t : BThreat) : Option NetId :=
  match t.id with
  | .net n => sup16 n
  | .addr _ => none

/-- `supernets_to_block`: the blockable IPv4 /24 threats grouped by /16
supernet in first-occurrence order (`defaultdict(list)`). -/
def supGroups (bl : List BThreat) : List (NetId × List BThreat) :=
  (bl.filterMap (fun t => (supKey t).map (fun s => (s, t)))).foldl
    (fun g p => addToGroups g p.1 p.2) []

/-- Phase 1 submissions: one /16 target per supernet containing at least two
blockable /24 threats, in group order, paired with the collaborator's
answer. -/
def phase1Subs (accept : Target → Bool) :
    List (NetId × List BThreat) → List (Target × Bool)
  | [] => []
  | (s, ts) :: rest =>
    if 2 ≤ ts.length then
      (Target.net s, accept (Target.net s)) :: phase1Subs accept rest
    else phase1Subs accept rest

/-- `blocked_subnets_via_supernet`: ids of the /24 threats contained in a /16
whose submission the collaborator accepted. -/
def phase1Cov (accept : Target → Bool) :
    List (NetId × List BThreat) → List ThreatId
  | [] => []
  | (s, ts) :: rest =>
    if 2 ≤ ts.length then
      if accept (Target.net s) then
        ts.map (fun t => t.id) ++ phase1Cov accept rest
      else phase1Cov accept rest
    else phase1Cov accept rest

/-- The `blocked_targets_count` contribution of phase 1. -/
def phase1Count (accept : Target → Bool) :
    List (NetId × List BThreat) → Nat
  | [] => 0
  | (s, ts) :: rest =>
    if 2 ≤ ts.length then
      (if accept (Target.net s) then 1 else 0) + phase1Count accept rest
    else phase1Count accept rest

/-- The target submitted for one top-N threat: the single member address when
`threat.get('ip_count') == 1` and details are present, otherwise the threat
id itself. -/
def targetOf (t : BThreat) : Target :=
  if t.ip_count = some 1 ∧ t.details ≠ [] then Target.addr t.details.headI.ip
  else
    match t.id with
    | .net n => Target.net n
    | .addr ip => Target.addr ip

/-- The target a threat id denotes directly (the else-branch of `targetOf`). -/
def idTarget : ThreatId → Target
  | .net n => Target.net n
  | .addr ip => Target.addr ip

/-- Phase 2 submissions: walk the given (top-N, score-sorted) threats in
order, skip ids covered by an accepted /16 block, submit each remaining
blockable one. -/
def phase2Subs (accept : Target → Bool) (cov : List ThreatId) :
    List BThreat → List (Target × Bool)
  | [] => []
  | t :: rest =>
    if t.id ∈ cov then phase2Subs accept cov rest
    else if t.should_block then
      (targetOf t, accept (targetOf t)) :: phase2Subs accept cov rest
    else phase2Subs accept cov rest

/-- The `blocked_targets_count` contribution of phase 2. -/
def phase2Count (accept : Target → Bool) (cov : List ThreatId) :
    List BThreat → Nat
  | [] => 0
  | t :: rest =>
    if t.id ∈ cov then phase2Count accept cov rest
    else if t.should_block then
      (if accept (targetOf t) then 1 else 0) + phase2Count accept cov rest
    else phase2Count accept cov rest

/-- `threats.sort(key=lambda x: x.get('strategy_score', 0), reverse=True)`
(stable, like Python's sort). -/
def sortThreatsDesc (threats : List BThreat) : List BThreat :=
  threats.mergeSort (fun a b => decide (b.score ≤ a.score))

/-- Result of one run of the blocking phase. -/
structure BlockRun where
  submissions : List (Target × Bool)
  covered : List ThreatId
  count : Nat
deriving DecidableEq

/-- One run of the blocking phase of `main`: phase 1 consolidates blockable
IPv4 /24 threats into /16 supernet submissions, recording the contained /24
ids as covered when the collaborator accepts; phase 2 walks the first `topN`
score-sorted threats, skipping covered ids and submitting the remaining
blockable ones. -/
def runBlocking (accept : Target → Bool) (threats : List BThreat)
    (topN : Nat) : BlockRun :=
  let groups := supGroups (blockableThreats threats)
  let cov := phase1Cov accept groups
  let top := (sortThreatsDesc threats).take topN
  { submissions := phase1Subs accept groups ++ phase2Subs accept cov top
    covered := cov
    count := phase1Count accept groups + phase2Count accept cov top }

/-- Well-shaped threat ids as produced by `identify_threats`: IPv4 network
ids always have prefix length 24 (IPv6 and plain-address ids are
unconstrained). -/
def idOk : ThreatId → Bool
  | .net (.v4 _ _ _ _ plen) => plen == 24
  | _ => true

/-- Counterexample fixture: a blockable /24 threat under `10.0.0.0/16`. -/
def cexThreat1 : BThreat :=
  ⟨ThreatId.net (NetId.v4 10 0 0 0 24), 0, true, some 2, []⟩

/-- Counterexample fixture: a second blockable /24 threat under
`10.0.0.0/16`. -/
def cexThreat2 : BThreat :=
  ⟨ThreatId.net (NetId.v4 10 0 1 0 24), 0, true, some 2, []⟩

/-- Counterexample fixture: a collaborator that rejects exactly the /16
supernet submission. -/
def cexAccept : Target → Bool :=
  fun tgt => decide (tgt ≠ Target.net (NetId.v4 10 0 0 0 16))

/-! ## Tolerant decoding in `_read_lines_reverse`

The reverse reader decodes each block with `buffer.decode('utf-8')` and, on a
`UnicodeDecodeError`, with `buffer.decode('utf-8', errors='ignore')`.  The
standard-library decoder is modelled byte-by-byte: bytes and decoded code
points are natural numbers. -/

/-- A UTF-8 continuation byte. -/
def isCont (b : Nat) : Bool := 0x80 ≤ b && b ≤ 0xBF

/-- Valid second byte of a three-byte sequence headed by `b0` (excluding
overlong encodings and surrogates). -/
def cont3Ok (b0 b1 : Nat) : Bool :=
  if b0 = 0xE0 then 0xA0 ≤ b1 && b1 ≤ 0xBF
  else if b0 = 0xED then 0x80 ≤ b1 && b1 ≤ 0x9F
  else isCont b1

/-- Valid second byte of a four-byte sequence headed by `b0` (excluding
overlong encodings and code points beyond `0x10FFFF`). -/
def cont4Ok (b0 b1 : Nat) : Bool :=
  if b0 = 0xF0 then 0x90 ≤ b1 && b1 ≤ 0xBF
  else if b0 = 0xF4 then 0x80 ≤ b1 && b1 ≤ 0x8F
  else isCont b1

/-- One decoding step of the standard-library UTF-8 decoder: given a lead
byte and the remaining bytes, the decoded code point and the bytes after its
sequence, or `none` on an invalid lead byte, invalid continuation, overlong
form, surrogate or truncated sequence. -/
def decodeStep (b0 : Nat) (rest : List Nat) : Option (Nat × List Nat) :=
  if b0 < 0x80 then some (b0, rest)
  else if 0xC2 ≤ b0 && b0 ≤ 0xDF then
    match rest with
    | b1 :: rest2 =>
      if isCont b1 then some ((b0 - 0xC0) * 0x40 + (b1 - 0x80), rest2)
      else none
    | [] => none
  else if 0xE0 ≤ b0 && b0 ≤ 0xEF then
    match rest with
    | b1 :: b2 :: rest3 =>
      if cont3Ok b0 b1 && isCont b2 then
        some ((b0 - 0xE0) * 0x1000 + (b1 - 0x80) * 0x40 + (b2 - 0x80),
          rest3)
      else none
    | _ => none
  else if 0xF0 ≤ b0 && b0 ≤ 0xF4 then
    match rest with
    | b1 :: b2 :: b3 :: rest4 =>
      if cont4Ok b0 b1 && isCont b2 && isCont b3 then
        some ((b0 - 0xF0) * 0x40000 + (b1 - 0x80) * 0x1000 +
          (b2 - 0x80) * 0x40 + (b3 - 0x80), rest4)
      else none
    | _ => none
  else none

/-- Strict decoding loop (fuelled; the fuel is an upper bound on the number
of bytes and never runs out when started at the block length). -/
def dsGo : Nat → List Nat → Option (List Nat)
  | _, [] => some []
  | 0, _ :: _ => none
  | fuel + 1, b0 :: rest =>
    match decodeStep b0 rest with
    | some (c, restAfter) => (dsGo fuel restAfter).map (fun cs => c :: cs)
    | none => none

/-- Strict UTF-8 decoding (`buffer.decode('utf-8')`): `none` on any invalid
or truncated sequence (a `UnicodeDecodeError`). -/
def utf8DecodeStrict (bs : List Nat) : Option (List Nat) := dsGo bs.length bs

/-- Lossy decoding loop (fuelled): on a decoding error the offending lead
byte is dropped and decoding resumes at the next byte; nothing is substituted
in its place. -/
def igGo : Nat → List Nat → List Nat
  | _, [] => []
  | 0, _ :: _ => []
  | fuel + 1, b0 :: rest =>
    match decodeStep b0 rest with
    | some (c, restAfter) => c :: igGo fuel restAfter
    | none => igGo fuel rest

/-- Lossy UTF-8 decoding (`buffer.decode('utf-8', errors='ignore')`):
undecodable bytes are dropped, the rest of the block is still decoded. -/
def utf8DecodeIgnore (bs : List Nat) : List Nat := igGo bs.length bs

/-- The per-block decode of `_read_lines_reverse`: try strict decoding, fall
back to lossy decoding on failure. -/
def decodeBuffer (block : List Nat) : List Nat :=
  match utf8DecodeStrict block with
  | some cs => cs
  | none => utf8DecodeIgnore block

/-- Standard UTF-8 encoding of one Unicode scalar value. -/
def utf8EncodeChar (c : Nat) : List Nat :=
  if c < 0x80 then [c]
  else if c < 0x800 then [0xC0 + c / 0x40, 0x80 + c % 0x40]
  else if c < 0x10000 then
    [0xE0 + c / 0x1000, 0x80 + (c / 0x40) % 0x40, 0x80 + c % 0x40]
  else
    [0xF0 + c / 0x40000, 0x80 + (c / 0x1000) % 0x40,
      0x80 + (c / 0x40) % 0x40, 0x80 + c % 0x40]

/-- A Unicode scalar value: below `0x110000` and not a surrogate. -/
def ScalarValue (c : Nat) : Prop :=
  c < 0x110000 ∧ ¬(0xD800 ≤ c ∧ c ≤ 0xDFFF)

instance (c : Nat) : Decidable (ScalarValue c) := by
  rw [ScalarValue]
  infer_instance

/-- Standard UTF-8 encoding of a sequence of scalar values. -/
def utf8Encode (cs : List Nat) : List Nat := cs.flatMap utf8EncodeChar

/-! ## Whitelist loading (`ThreatAnalyzer.load_whitelist_from_file`)

The filesystem is modelled as a map from paths to `none` (`os.path.exists`
false), `some none` (the file exists but reading raises, the `except`
branch), or `some (some fileLines)` (readable, with its lines).
`line.strip()` is modelled by `String.trim`. -/

/-- `load_whitelist_from_file`: returns the entry count and the analyzer
whitelist after the call.  A missing file or a read error returns `0` and
leaves the whitelist unchanged; otherwise the whitelist is replaced by the
stripped non-empty, non-comment lines and their count is returned. -/
def loadWhitelist (fs : String → Option (Option (List String)))
    (whitelist : List String) (whitelistFile : String) :
    Nat × List String :=
  match fs whitelistFile with
  | none => (0, whitelist)
  | some none => (0, whitelist)
  | some (some fileLines) =>
    let newList := (fileLines.map String.trim).filter
      (fun l => !(l == "") && !(l.startsWith "#"))
    (newList.length, newList)

/-! ### Helper lemmas about the sorted timestamp list -/

theorem sortedLe_of_mergeSort (l : List Int) :
    (l.mergeSort (fun a b => decide (a ≤ b))).Sorted (· ≤ ·) := by
  have h := @List.sorted_mergeSort Int (fun a b : Int => decide (a ≤ b))
    (fun a b c hab hbc => by
      simp only [decide_eq_true_iff] at *; exact le_trans hab hbc)
    (fun a b => by
      simp only [Bool.or_eq_true, decide_eq_true_iff]; exact le_total a b) l
  exact h.imp (fun h => by simpa using h)

theorem head_mergeSort_eq_min (l : List Int) (hne : l ≠ []) :
    (l.mergeSort (fun a b => decide (a ≤ b))).head?.getD 0 = l.min?.getD 0 := by
  have hperm := l.mergeSort_perm (fun a b => decide (a ≤ b))
  have hsorted := sortedLe_of_mergeSort l
  revert hperm hsorted
  generalize l.mergeSort (fun a b => decide (a ≤ b)) = s
  intro hperm hsorted
  cases s with
  | nil => exact absurd hperm.symm.eq_nil hne
  | cons x xs =>
    have anti : Std.Antisymm ((· : Int) ≤ ·) := ⟨fun h h' => le_antisymm h h'⟩
    have hmin : l.min? = some x := by
      rw [List.min?_eq_some_iff (fun a => le_refl a) (fun a b => min_choice a b)
        (fun a b c => le_min_iff)]
      refine ⟨hperm.mem_iff.mp (List.mem_cons_self x xs), fun b hb => ?_⟩
      rcases List.mem_cons.mp (hperm.mem_iff.mpr hb) with h | h
      · exact le_of_eq h.symm
      · exact (List.pairwise_cons.mp hsorted).1 b h
    simp [hmin]

theorem getLast_mergeSort_eq_max (l : List Int) (hne : l ≠ []) :
    (l.mergeSort (fun a b => decide (a ≤ b))).getLast?.getD 0 = l.max?.getD 0 := by
  have hperm := (l.mergeSort_perm (fun a b => decide (a ≤ b))).symm.trans
    (l.mergeSort (fun a b => decide (a ≤ b))).reverse_perm.symm
  have hsorted : ((l.mergeSort (fun a b => decide (a ≤ b))).reverse).Pairwise (· ≥ ·) := by
    rw [List.pairwise_reverse]
    exact sortedLe_of_mergeSort l
  rw [← List.head?_reverse]
  revert hperm hsorted
  generalize (l.mergeSort (fun a b => decide (a ≤ b))).reverse = s
  intro hperm hsorted
  cases s with
  | nil => exact absurd hperm.eq_nil hne
  | cons x xs =>
    have anti : Std.Antisymm ((· : Int) ≤ ·) := ⟨fun h h' => le_antisymm h h'⟩
    have hmax : l.max? = some x := by
      rw [List.max?_eq_some_iff (fun a => le_refl a) (fun a b => max_choice a b)
        (fun a b c => max_le_iff)]
      refine ⟨hperm.symm.mem_iff.mp (List.mem_cons_self x xs), fun b hb => ?_⟩
      rcases List.mem_cons.mp (hperm.symm.mem_iff.mpr hb) with h | h
      · exact le_of_eq h
      · exact (List.pairwise_cons.mp hsorted).1 b h
    simp [hmax]

/-! ### Claim C1: reverse scan refines the filtered forward scan -/

theorem takeWhile_eq_filter_of_pairwise {α : Type} (p : α → Bool) (l : List α)
    (h : l.Pairwise (fun a b => p b = true → p a = true)) :
    l.takeWhile p = l.filter p := by
  induction l with
  | nil => rfl
  | cons a t ih =>
    rcases List.pairwise_cons.mp h with ⟨ha, ht⟩
    by_cases hp : p a = true
    · simp [List.takeWhile_cons, List.filter_cons, hp, ih ht]
    · have hnil : t.filter p = [] := by
        rw [List.filter_eq_nil_iff]
        intro b hb hpb
        exact hp (ha b hb hpb)
      simp [List.takeWhile_cons, List.filter_cons, hp, hnil]

theorem forwardScan_eq (wl : String → Bool) (lines : List LineOutcome) :
    forwardScan wl lines =
      (lines.filterMap parsedEntry).filter (fun e => !wl e.ip) := by
  induction lines with
  | nil => rfl
  | cons l rest ih =>
    match l with
    | none => simpa [forwardScan, parsedEntry, List.filterMap_cons] using ih
    | some (ip, none) =>
      simpa [forwardScan, parsedEntry, List.filterMap_cons] using ih
    | some (ip, some dt) =>
      by_cases hw : wl ip
      all_goals simp [forwardScan, parsedEntry, List.filterMap_cons,
        List.filter_cons, hw, ih]

theorem reverseScanAux_eq (wl : String → Bool) (startDate : Int)
    (L : List LineOutcome) :
    reverseScanAux wl startDate L =
      ((L.filterMap parsedEntry).takeWhile
        (fun e => decide (startDate ≤ e.dt))).filter (fun e => !wl e.ip) := by
  induction L with
  | nil => rfl
  | cons l rest ih =>
    match l with
    | none => simpa [reverseScanAux, parsedEntry, List.filterMap_cons] using ih
    | some (ip, none) =>
      simpa [reverseScanAux, parsedEntry, List.filterMap_cons] using ih
    | some (ip, some dt) =>
      by_cases hd : dt < startDate
      · simp [reverseScanAux, parsedEntry, List.filterMap_cons,
          List.takeWhile_cons, hd, not_le.mpr hd]
      · by_cases hw : wl ip
        all_goals simp [reverseScanAux, parsedEntry, List.filterMap_cons,
          List.takeWhile_cons, List.filter_cons, hd, not_lt.mp hd, hw, ih]

/-- C1: for a log source whose parseable entries are non-decreasing in
timestamp, the reverse scan with a start-instant produces (in reverse order)
exactly the forward-scan result restricted to entries with timestamp at or
after the start-instant; it emits only entries with timestamp at or after the
start-instant, and for every address the per-address timestamp multisets of
the two scans agree. -/
theorem C1_reverse_scan_equiv (wl : String → Bool) (startDate : Int)
    (lines : List LineOutcome)
    (hmono : (lines.filterMap parsedEntry).Pairwise (fun a b => a.dt ≤ b.dt)) :
    reverseScan wl startDate lines =
      ((forwardScan wl lines).filter
        (fun e => decide (startDate ≤ e.dt))).reverse
    ∧ (∀ e ∈ reverseScan wl startDate lines, startDate ≤ e.dt)
    ∧ ∀ ip, (((reverseScan wl startDate lines).filter
          (fun e => e.ip == ip)).map Entry.dt).Perm
        ((((forwardScan wl lines).filter (fun e => decide (startDate ≤ e.dt))).filter
          (fun e => e.ip == ip)).map Entry.dt) := by
  have hmain : reverseScan wl startDate lines =
      ((forwardScan wl lines).filter
        (fun e => decide (startDate ≤ e.dt))).reverse := by
    rw [reverseScan, reverseScanAux_eq, forwardScan_eq]
    rw [List.filterMap_reverse]
    have hpw : ((lines.filterMap parsedEntry).reverse).Pairwise
        (fun a b => decide (startDate ≤ b.dt) = true →
          decide (startDate ≤ a.dt) = true) := by
      rw [List.pairwise_reverse]
      refine hmono.imp ?_
      intro a b hab
      simp only [decide_eq_true_iff]
      intro hs
      exact le_trans hs hab
    rw [takeWhile_eq_filter_of_pairwise _ _ hpw]
    simp only [List.filter_reverse, List.filter_filter]
    exact congrArg List.reverse (List.filter_congr
      (fun a _ => by rw [Bool.and_comm]))
  refine ⟨hmain, ?_, ?_⟩
  · intro e he
    rw [hmain, List.mem_reverse, List.mem_filter] at he
    simpa using he.2
  · intro ip
    rw [hmain]
    simp only [List.filter_reverse, List.map_reverse]
    exact List.reverse_perm _

theorem C1_reverse_scan_equiv_witness :
    reverseScan (fun ip => ip == "9.9.9.9") 15
      [some ("1.2.3.4", some 10), none, some ("9.9.9.9", some 20),
        some ("1.2.3.4", some 30)] =
      ((forwardScan (fun ip => ip == "9.9.9.9")
        [some ("1.2.3.4", some 10), none, some ("9.9.9.9", some 20),
          some ("1.2.3.4", some 30)]).filter
        (fun e => decide ((15 : Int) ≤ e.dt))).reverse :=
  (C1_reverse_scan_equiv (fun ip => ip == "9.9.9.9") 15
    [some ("1.2.3.4", some 10), none, some ("9.9.9.9", some 20),
      some ("1.2.3.4", some 30)] (by decide)).1

/-! ### Claim theorems C3, C4, C5 -/

/-- C3: for every `AddressRecord`, the computed rate equals
`count / (span_seconds / 60)` where `span_seconds` is the difference between
the latest and the earliest timestamp, whenever the record has at least two
timestamps and the span is positive; in every other case the rate is `0`. -/
theorem C3_rate_formula (times : List Int) :
    computeRpm times =
      if 2 ≤ times.length ∧ 0 < spanOf times then
        (times.length : ℚ) / ((spanOf times : ℚ) / 60)
      else 0 := by
  by_cases h2 : 2 ≤ times.length
  · have hne : times ≠ [] := by
      intro h; subst h; simp at h2
    simp only [computeRpm, if_pos h2,
      getLast_mergeSort_eq_max times hne, head_mergeSort_eq_min times hne]
    by_cases hsp : 0 < spanOf times
    · rw [if_pos (show 0 < times.max?.getD 0 - times.min?.getD 0 from hsp),
        if_pos ⟨h2, hsp⟩]
      rfl
    · rw [if_neg (show ¬ 0 < times.max?.getD 0 - times.min?.getD 0 from hsp),
        if_neg (by tauto)]
  · simp only [computeRpm, if_neg h2]
    rw [if_neg (by tauto)]

/-- C4: for every `AddressRecord` with fewer than two timestamps, the computed
rate is `0` and the address is never flagged suspicious with any nonnegative
configured rpm threshold (the program always uses the default `100`). -/
theorem C4_few_timestamps (threshold : ℚ) (times : List Int)
    (hlen : times.length < 2) (hth : 0 ≤ threshold) :
    computeRpm times = 0 ∧ isSuspicious threshold times = false := by
  have h0 : computeRpm times = 0 := by
    simp only [computeRpm]
    rw [if_neg (by omega)]
  refine ⟨h0, ?_⟩
  simp only [isSuspicious, h0, decide_eq_false_iff_not, not_lt]
  exact hth

theorem C4_few_timestamps_witness :
    computeRpm [5] = 0 ∧ isSuspicious 100 [5] = false :=
  C4_few_timestamps 100 [5] (by decide) (by decide)

/-- C5: the computed rate depends only on the multiset of timestamps — for
every permutation of the timestamp sequence the rate is identical. -/
theorem C5_rate_perm_invariant (times₁ times₂ : List Int)
    (h : times₁.Perm times₂) :
    computeRpm times₁ = computeRpm times₂ := by
  have hlen := h.length_eq
  have hsort : times₁.mergeSort (fun a b => decide (a ≤ b)) =
      times₂.mergeSort (fun a b => decide (a ≤ b)) :=
    List.eq_of_perm_of_sorted
      ((times₁.mergeSort_perm _).trans (h.trans (times₂.mergeSort_perm _).symm))
      (sortedLe_of_mergeSort _) (sortedLe_of_mergeSort _)
  simp only [computeRpm, hlen, hsort]

theorem C5_rate_perm_invariant_witness :
    computeRpm [1, 61] = computeRpm [61, 1] :=
  C5_rate_perm_invariant [1, 61] [61, 1] (by decide)

/-! ### Grouping lemmas for `subnet_data` -/

theorem addToGroups_flatMap_perm {κ ν : Type} [DecidableEq κ]
    (g : List (κ × List ν)) (k : κ) (v : ν) :
    ((addToGroups g k v).flatMap Prod.snd).Perm
      (g.flatMap Prod.snd ++ [v]) := by
  induction g with
  | nil => simp [addToGroups]
  | cons p rest ih =>
    obtain ⟨k', vs⟩ := p
    by_cases hk : k' = k
    · simp only [addToGroups, if_pos hk, List.flatMap_cons, List.append_assoc]
      exact (List.Perm.append_left vs
        (List.perm_append_comm.trans (List.Perm.append_left _ (List.Perm.refl _))))
    · simp only [addToGroups, if_neg hk, List.flatMap_cons, List.append_assoc]
      exact List.Perm.append_left vs (by simpa [List.append_assoc] using ih)

theorem foldl_addToGroups_flatMap_perm {κ ν : Type} [DecidableEq κ]
    (pairs : List (κ × ν)) (g : List (κ × List ν)) :
    ((pairs.foldl (fun acc p => addToGroups acc p.1 p.2) g).flatMap
      Prod.snd).Perm (g.flatMap Prod.snd ++ pairs.map Prod.snd) := by
  induction pairs generalizing g with
  | nil => simp
  | cons p rest ih =>
    simp only [List.foldl_cons, List.map_cons]
    refine (ih (addToGroups g p.1 p.2)).trans ?_
    have h1 := (addToGroups_flatMap_perm g p.1 p.2).append_right
      (rest.map Prod.snd)
    refine h1.trans ?_
    simp [List.append_assoc]

theorem mem_keys_addToGroups {κ ν : Type} [DecidableEq κ]
    {g : List (κ × List ν)} {k : κ} {v : ν} {x : κ}
    (h : x ∈ (addToGroups g k v).map Prod.fst) :
    x ∈ g.map Prod.fst ∨ x = k := by
  induction g with
  | nil => simpa [addToGroups] using h
  | cons p rest ih =>
    obtain ⟨k', vs⟩ := p
    by_cases hk : k' = k
    · simp only [addToGroups, if_pos hk, List.map_cons, List.mem_cons] at h ⊢
      tauto
    · simp only [addToGroups, if_neg hk, List.map_cons, List.mem_cons] at h ⊢
      rcases h with h | h
      · tauto
      · rcases ih h with h | h <;> tauto

theorem nodup_keys_addToGroups {κ ν : Type} [DecidableEq κ]
    {g : List (κ × List ν)} (k : κ) (v : ν)
    (h : (g.map Prod.fst).Nodup) :
    ((addToGroups g k v).map Prod.fst).Nodup := by
  induction g with
  | nil => simp [addToGroups]
  | cons p rest ih =>
    obtain ⟨k', vs⟩ := p
    simp only [List.map_cons, List.nodup_cons] at h
    by_cases hk : k' = k
    · simp only [addToGroups, if_pos hk, List.map_cons, List.nodup_cons]
      exact ⟨h.1, h.2⟩
    · simp only [addToGroups, if_neg hk, List.map_cons, List.nodup_cons]
      refine ⟨fun hmem => ?_, ih h.2⟩
      rcases mem_keys_addToGroups hmem with hmem | hmem
      · exact h.1 hmem
      · exact hk hmem

theorem nodup_keys_foldl_addToGroups {κ ν : Type} [DecidableEq κ]
    (pairs : List (κ × ν)) (g : List (κ × List ν))
    (h : (g.map Prod.fst).Nodup) :
    (((pairs.foldl (fun acc p => addToGroups acc p.1 p.2) g)).map
      Prod.fst).Nodup := by
  induction pairs generalizing g with
  | nil => exact h
  | cons p rest ih =>
    exact ih (addToGroups g p.1 p.2) (nodup_keys_addToGroups p.1 p.2 h)

theorem nonempty_addToGroups {κ ν : Type} [DecidableEq κ]
    {g : List (κ × List ν)} (k : κ) (v : ν)
    (h : ∀ p ∈ g, p.2 ≠ ([] : List ν)) :
    ∀ p ∈ addToGroups g k v, p.2 ≠ ([] : List ν) := by
  induction g with
  | nil =>
    intro p hp
    simp only [addToGroups, List.mem_singleton] at hp
    subst hp
    simp
  | cons q rest ih =>
    obtain ⟨k', vs⟩ := q
    intro p hp
    by_cases hk : k' = k
    · simp only [addToGroups, if_pos hk, List.mem_cons] at hp
      rcases hp with hp | hp
      · subst hp; simp
      · exact h p (List.mem_cons_of_mem _ hp)
    · simp only [addToGroups, if_neg hk, List.mem_cons] at hp
      rcases hp with hp | hp
      · subst hp; exact h _ (List.mem_cons_self _ _)
      · exact ih (fun q hq => h q (List.mem_cons_of_mem _ hq)) p hp

theorem nonempty_foldl_addToGroups {κ ν : Type} [DecidableEq κ]
    (pairs : List (κ × ν)) (g : List (κ × List ν))
    (h : ∀ p ∈ g, p.2 ≠ ([] : List ν)) :
    ∀ p ∈ pairs.foldl (fun acc q => addToGroups acc q.1 q.2) g,
      p.2 ≠ ([] : List ν) := by
  induction pairs generalizing g with
  | nil => exact h
  | cons q rest ih =>
    exact ih (addToGroups g q.1 q.2) (nonempty_addToGroups q.1 q.2 h)

theorem assoc_value_unique {κ ν : Type} (g : List (κ × ν))
    (h : (g.map Prod.fst).Nodup) {k : κ} {v v' : ν}
    (h1 : (k, v) ∈ g) (h2 : (k, v') ∈ g) : v = v' := by
  induction g with
  | nil => cases h1
  | cons p rest ih =>
    simp only [List.map_cons, List.nodup_cons] at h
    rcases List.mem_cons.mp h1 with e1 | m1 <;>
      rcases List.mem_cons.mp h2 with e2 | m2
    · exact congrArg Prod.snd (e1.trans e2.symm)
    · exfalso
      apply h.1
      rw [(congrArg Prod.fst e1).symm]
      exact List.mem_map.mpr ⟨(k, v'), m2, rfl⟩
    · exfalso
      apply h.1
      rw [(congrArg Prod.fst e2).symm]
      exact List.mem_map.mpr ⟨(k, v), m1, rfl⟩
    · exact ih h.2 m1 m2

theorem flatMap_perm_of_forall {α β : Type} (l : List α) (f g : α → List β)
    (h : ∀ x ∈ l, (f x).Perm (g x)) : (l.flatMap f).Perm (l.flatMap g) := by
  induction l with
  | nil => exact List.Perm.refl _
  | cons a t ih =>
    simp only [List.flatMap_cons]
    exact (h a (List.mem_cons_self a t)).append
      (ih fun x hx => h x (List.mem_cons_of_mem a hx))

theorem sortInfosDesc_perm (infos : List IpInfo) :
    (sortInfosDesc infos).Perm infos :=
  infos.mergeSort_perm _

theorem sortInfosDesc_sorted (infos : List IpInfo) :
    (sortInfosDesc infos).Pairwise
      (fun a b => b.danger_score ≤ a.danger_score) := by
  have h := @List.sorted_mergeSort IpInfo
    (fun a b : IpInfo => decide (b.danger_score ≤ a.danger_score))
    (fun a b c hab hbc => by
      simp only [decide_eq_true_iff] at *
      exact le_trans hbc hab)
    (fun a b => by
      simp only [Bool.or_eq_true, decide_eq_true_iff]
      exact le_total b.danger_score a.danger_score) infos
  exact h.imp (fun h => by simpa using h)

/-! ### Claims C6 and C7: threat-group construction -/

theorem mem_identifyThreats {threshold : ℚ} {ds : ℚ → Nat → Bool → ℚ}
    {gsub : String → Option String} {ipData : List (String × List Int)}
    {t : ThreatRec} :
    t ∈ identifyThreats threshold ds gsub ipData ↔
      ∃ g ∈ subnetGroups threshold ds gsub ipData, mkThreat g.1 g.2 = t := by
  rw [identifyThreats, (List.mergeSort_perm _ _).mem_iff]
  simp [List.mem_map]

/-- C6: a subnet grouping exactly one suspicious member yields an `ip`-type
threat built directly from that member's metric and never a `subnet`-type
threat for that subnet; a grouping of two or more members yields a
`subnet`-type threat with summed requests, summed danger score and members
sorted descending by danger score. -/
theorem C6_single_vs_subnet (threshold : ℚ) (ds : ℚ → Nat → Bool → ℚ)
    (gsub : String → Option String) (ipData : List (String × List Int)) :
    (∀ s infos, (s, infos) ∈ subnetGroups threshold ds gsub ipData →
      infos.length = 1 →
      (∃ i, infos = [i] ∧
        ThreatRec.ip i ∈ identifyThreats threshold ds gsub ipData) ∧
      ∀ d r c dts, ThreatRec.subnet s d r c dts ∉
        identifyThreats threshold ds gsub ipData)
    ∧ ∀ s infos, (s, infos) ∈ subnetGroups threshold ds gsub ipData →
      2 ≤ infos.length →
      ThreatRec.subnet s ((infos.map IpInfo.danger_score).sum)
          ((infos.map IpInfo.total_requests).sum) infos.length
          (sortInfosDesc infos) ∈ identifyThreats threshold ds gsub ipData ∧
      (sortInfosDesc infos).Perm infos ∧
      (sortInfosDesc infos).Pairwise
        (fun a b => b.danger_score ≤ a.danger_score) := by
  have hkeys : ((subnetGroups threshold ds gsub ipData).map Prod.fst).Nodup :=
    nodup_keys_foldl_addToGroups _ [] (by simp)
  constructor
  · intro s infos hmem hlen
    obtain ⟨i, hi⟩ : ∃ i, infos = [i] := by
      cases infos with
      | nil => simp at hlen
      | cons a t =>
        cases t with
        | nil => exact ⟨a, rfl⟩
        | cons b u => simp at hlen
    constructor
    · refine ⟨i, hi, ?_⟩
      rw [mem_identifyThreats]
      refine ⟨(s, infos), hmem, ?_⟩
      subst hi
      simp [mkThreat]
    · intro d r c dts hin
      obtain ⟨⟨s', infos'⟩, hmem', heq⟩ := mem_identifyThreats.mp hin
      by_cases hl : 1 < infos'.length
      · simp only [mkThreat, if_pos hl, ThreatRec.subnet.injEq] at heq
        have hs : s' = s := heq.1
        subst hs
        have heqv := assoc_value_unique _ hkeys hmem' hmem
        subst heqv
        rw [hi] at hl
        simp at hl
      · simp [mkThreat, if_neg hl] at heq
  · intro s infos hmem hlen
    refine ⟨?_, sortInfosDesc_perm infos, sortInfosDesc_sorted infos⟩
    rw [mem_identifyThreats]
    refine ⟨(s, infos), hmem, ?_⟩
    simp [mkThreat, if_pos (by omega : 1 < infos.length)]

theorem C6_single_vs_subnet_witness :
    ThreatRec.ip (mkInfo dsLin "1.1.1.1" [0, 10]) ∈
      identifyThreats 0 dsLin gsubConst [("1.1.1.1", [0, 10])] := by
  have hrpm : computeRpm [0, 10] = 12 := by
    have hms : ([0, 10] : List Int).mergeSort (fun a b => decide (a ≤ b)) =
        [0, 10] := List.mergeSort_of_sorted (by decide)
    rw [computeRpm, hms]
    norm_num
  have hmem0 : ("10.0.0.0/24", [mkInfo dsLin "1.1.1.1" [0, 10]]) ∈
      subnetGroups 0 dsLin gsubConst [("1.1.1.1", [0, 10])] := by
    have hg : subnetGroups 0 dsLin gsubConst [("1.1.1.1", [0, 10])] =
        [("10.0.0.0/24", [mkInfo dsLin "1.1.1.1" [0, 10]])] := by
      simp [subnetGroups, suspPairs, isSuspicious, hrpm, gsubConst, addToGroups]
    rw [hg]
    exact List.mem_singleton.mpr rfl
  obtain ⟨⟨i, hi, hmem⟩, -⟩ :=
    (C6_single_vs_subnet 0 dsLin gsubConst [("1.1.1.1", [0, 10])]).1
      "10.0.0.0/24" [mkInfo dsLin "1.1.1.1" [0, 10]] hmem0 (by decide)
  obtain rfl : mkInfo dsLin "1.1.1.1" [0, 10] = i := by
    simpa using hi
  exact hmem

theorem suspPairs_map_ip (threshold : ℚ) (ds : ℚ → Nat → Bool → ℚ)
    (gsub : String → Option String) (hth : 0 ≤ threshold)
    (hgs : ∀ ip, (gsub ip).isSome = true)
    (ipData : List (String × List Int)) :
    ((suspPairs threshold ds gsub ipData).map Prod.snd).map IpInfo.ip =
      (ipData.filter (fun p => isSuspicious threshold p.2)).map Prod.fst := by
  induction ipData with
  | nil => rfl
  | cons p rest ih =>
    simp only [suspPairs, List.filterMap_cons] at ih ⊢
    by_cases h0 : p.2.length = 0
    · have hp2 : p.2 = [] := List.length_eq_zero.mp h0
      have hsusp : isSuspicious threshold p.2 = false := by
        rw [hp2]
        simp only [isSuspicious, decide_eq_false_iff_not, not_lt]
        simpa [computeRpm] using hth
      rw [if_pos h0]
      simp only [List.filter_cons, hsusp]
      exact ih
    · by_cases hsusp : isSuspicious threshold p.2
      · obtain ⟨s, hs⟩ := Option.isSome_iff_exists.mp (hgs p.1)
        rw [if_neg h0]
        simp only [hsusp, if_true, hs, List.filter_cons, List.map_cons]
        exact congrArg (List.cons p.1) ih
      · rw [if_neg h0]
        simp only [Bool.not_eq_true] at hsusp
        simp only [hsusp, Bool.false_eq_true, if_false, List.filter_cons]
        exact ih

/-- C7: with a total subnet map and distinct `ip_data` keys, the member
addresses across all threat groups are exactly the suspicious addresses, each
occurring exactly once. -/
theorem C7_member_partition (threshold : ℚ) (ds : ℚ → Nat → Bool → ℚ)
    (gsub : String → Option String) (ipData : List (String × List Int))
    (hth : 0 ≤ threshold)
    (hkeys : (ipData.map Prod.fst).Nodup)
    (hgs : ∀ ip, (gsub ip).isSome = true) :
    (((identifyThreats threshold ds gsub ipData).flatMap
        ThreatRec.memberIps).Perm
      ((ipData.filter (fun p => isSuspicious threshold p.2)).map Prod.fst))
    ∧ ((identifyThreats threshold ds gsub ipData).flatMap
        ThreatRec.memberIps).Nodup := by
  have h1 : ((identifyThreats threshold ds gsub ipData).flatMap
      ThreatRec.memberIps).Perm
        (((subnetGroups threshold ds gsub ipData).map
          (fun g => mkThreat g.1 g.2)).flatMap ThreatRec.memberIps) :=
    List.Perm.flatMap_right _ (List.mergeSort_perm _ _)
  have h2 : (((subnetGroups threshold ds gsub ipData).map
      (fun g => mkThreat g.1 g.2)).flatMap ThreatRec.memberIps) =
        (subnetGroups threshold ds gsub ipData).flatMap
          (fun g => (mkThreat g.1 g.2).memberIps) :=
    List.flatMap_map _ _ _
  have hne := nonempty_foldl_addToGroups
    (suspPairs threshold ds gsub ipData) [] (by simp)
  have h3 : ((subnetGroups threshold ds gsub ipData).flatMap
      (fun g => (mkThreat g.1 g.2).memberIps)).Perm
        ((subnetGroups threshold ds gsub ipData).flatMap
          (fun g => g.2.map IpInfo.ip)) := by
    apply flatMap_perm_of_forall
    intro g hg
    by_cases hl : 1 < g.2.length
    · simp only [mkThreat, if_pos hl, ThreatRec.memberIps]
      exact (sortInfosDesc_perm g.2).map IpInfo.ip
    · obtain ⟨i, hi⟩ : ∃ i, g.2 = [i] := by
        have hne' := hne g hg
        cases hg2 : g.2 with
        | nil => exact absurd hg2 hne'
        | cons a t =>
          cases t with
          | nil => exact ⟨a, rfl⟩
          | cons b u => rw [hg2] at hl; simp at hl
      simp [mkThreat, if_neg hl, ThreatRec.memberIps, hi]
  have h4 : ((subnetGroups threshold ds gsub ipData).flatMap
      (fun g => g.2.map IpInfo.ip)) =
        (((subnetGroups threshold ds gsub ipData).flatMap
          Prod.snd).map IpInfo.ip) :=
    (List.map_flatMap _ _ _).symm
  have h5 : (((subnetGroups threshold ds gsub ipData).flatMap
      Prod.snd).map IpInfo.ip).Perm
        (((suspPairs threshold ds gsub ipData).map Prod.snd).map
          IpInfo.ip) := by
    apply List.Perm.map
    simpa using foldl_addToGroups_flatMap_perm
      (suspPairs threshold ds gsub ipData) []
  have h6 := suspPairs_map_ip threshold ds gsub hth hgs ipData
  have hperm := ((h1.trans (h2 ▸ h3)).trans (h4 ▸ h5)).trans
    (List.Perm.of_eq h6)
  refine ⟨hperm, ?_⟩
  have hsub : ((ipData.filter
      (fun p => isSuspicious threshold p.2)).map Prod.fst).Nodup :=
    List.Nodup.sublist
      (List.Sublist.map Prod.fst (List.filter_sublist ipData)) hkeys
  exact hperm.nodup_iff.mpr hsub

theorem C7_member_partition_witness :
    (((identifyThreats 0 dsLin gsubConst
        [("1.1.1.1", [0, 10]), ("1.1.1.2", [0, 5]), ("2.2.2.2", [])]).flatMap
          ThreatRec.memberIps).Perm
      (([("1.1.1.1", [0, 10]), ("1.1.1.2", [0, 5]),
          ("2.2.2.2", ([] : List Int))].filter
        (fun p => isSuspicious 0 p.2)).map Prod.fst))
    ∧ ((identifyThreats 0 dsLin gsubConst
        [("1.1.1.1", [0, 10]), ("1.1.1.2", [0, 5]), ("2.2.2.2", [])]).flatMap
          ThreatRec.memberIps).Nodup :=
  C7_member_partition 0 dsLin gsubConst
    [("1.1.1.1", [0, 10]), ("1.1.1.2", [0, 5]), ("2.2.2.2", [])]
    (by decide) (by decide) (fun ip => rfl)

/-! ### Lemmas on the blocking phase -/

theorem phase1Subs_map_fst (accept : Target → Bool)
    (gs : List (NetId × List BThreat)) :
    (phase1Subs accept gs).map Prod.fst =
      (gs.filter (fun g => decide (2 ≤ g.2.length))).map
        (fun g => Target.net g.1) := by
  induction gs with
  | nil => rfl
  | cons g rest ih =>
    obtain ⟨s, ts⟩ := g
    by_cases h2 : 2 ≤ ts.length
    · simp [phase1Subs, if_pos h2, List.filter_cons, h2, ih]
    · simp [phase1Subs, if_neg h2, List.filter_cons, h2, ih]

theorem phase1Count_eq (accept : Target → Bool)
    (gs : List (NetId × List BThreat)) :
    phase1Count accept gs =
      ((phase1Subs accept gs).filter (fun p => p.2)).length := by
  induction gs with
  | nil => rfl
  | cons g rest ih =>
    obtain ⟨s, ts⟩ := g
    by_cases h2 : 2 ≤ ts.length
    · by_cases ha : accept (Target.net s)
      all_goals simp [phase1Count, phase1Subs, if_pos h2, ha, ih,
        List.filter_cons, Nat.add_comm]
    · simp [phase1Count, phase1Subs, if_neg h2, ih]

theorem phase2Subs_map_fst (accept : Target → Bool) (cov : List ThreatId)
    (l : List BThreat) :
    (phase2Subs accept cov l).map Prod.fst =
      (l.filter (fun t => !decide (t.id ∈ cov) && t.should_block)).map
        targetOf := by
  induction l with
  | nil => rfl
  | cons t rest ih =>
    by_cases hc : t.id ∈ cov
    · simp [phase2Subs, if_pos hc, List.filter_cons, hc, ih]
    · by_cases hb : t.should_block
      all_goals simp [phase2Subs, if_neg hc, hb, List.filter_cons, hc, ih]

theorem phase2Count_eq (accept : Target → Bool) (cov : List ThreatId)
    (l : List BThreat) :
    phase2Count accept cov l =
      ((phase2Subs accept cov l).filter (fun p => p.2)).length := by
  induction l with
  | nil => rfl
  | cons t rest ih =>
    by_cases hc : t.id ∈ cov
    · simp [phase2Count, phase2Subs, if_pos hc, ih]
    · by_cases hb : t.should_block
      · by_cases ha : accept (targetOf t)
        all_goals simp [phase2Count, phase2Subs, if_neg hc, hb, ha, ih,
          List.filter_cons, Nat.add_comm]
      · simp [phase2Count, phase2Subs, if_neg hc, hb, ih]

theorem phase1Cov_mono (accept accept' : Target → Bool)
    (hmono : ∀ tgt, accept tgt = true → accept' tgt = true)
    (gs : List (NetId × List BThreat)) :
    ∀ x ∈ phase1Cov accept gs, x ∈ phase1Cov accept' gs := by
  induction gs with
  | nil => intro x hx; cases hx
  | cons g rest ih =>
    obtain ⟨s, ts⟩ := g
    intro x hx
    by_cases h2 : 2 ≤ ts.length
    · by_cases ha : accept (Target.net s)
      · rw [phase1Cov, if_pos h2, if_pos ha] at hx
        rw [phase1Cov, if_pos h2, if_pos (hmono _ ha)]
        rcases List.mem_append.mp hx with hx | hx
        · exact List.mem_append.mpr (Or.inl hx)
        · exact List.mem_append.mpr (Or.inr (ih x hx))
      · rw [phase1Cov, if_pos h2, if_neg ha] at hx
        rw [phase1Cov, if_pos h2]
        by_cases ha' : accept' (Target.net s)
        · rw [if_pos ha']
          exact List.mem_append.mpr (Or.inr (ih x hx))
        · rw [if_neg ha']
          exact ih x hx
    · rw [phase1Cov, if_neg h2] at hx
      rw [phase1Cov, if_neg h2]
      exact ih x hx

theorem mem_phase1Cov_of (accept : Target → Bool)
    (gs : List (NetId × List BThreat)) :
    ∀ s ts, (s, ts) ∈ gs → 2 ≤ ts.length →
      accept (Target.net s) = true →
      ∀ t ∈ ts, t.id ∈ phase1Cov accept gs := by
  induction gs with
  | nil => intro s ts hmem; cases hmem
  | cons g rest ih =>
    obtain ⟨s', ts'⟩ := g
    intro s ts hmem h2 ha t ht
    rcases List.mem_cons.mp hmem with he | hr
    · injection he with h1 h2'
      subst h1
      subst h2'
      rw [phase1Cov, if_pos h2, if_pos ha]
      exact List.mem_append.mpr (Or.inl (List.mem_map.mpr ⟨t, ht, rfl⟩))
    · rw [phase1Cov]
      by_cases hl : 2 ≤ ts'.length
      · rw [if_pos hl]
        by_cases ha' : accept (Target.net s')
        · rw [if_pos ha']
          exact List.mem_append.mpr
            (Or.inr (ih s ts hr h2 ha t ht))
        · rw [if_neg ha']
          exact ih s ts hr h2 ha t ht
      · rw [if_neg hl]
        exact ih s ts hr h2 ha t ht

theorem sup16_shape {n s : NetId} (h : sup16 n = some s) :
    ∃ a b, s = NetId.v4 a b 0 0 16 := by
  match n with
  | .v4 a b c d plen =>
    match plen with
    | 24 =>
      simp only [sup16, Option.some.injEq] at h
      exact ⟨a, b, h.symm⟩
    | 0 | 1 => simp [sup16] at h
  | .v6 tag => simp [sup16] at h

theorem keys_foldl_addToGroups_sub {κ ν : Type} [DecidableEq κ]
    (pairs : List (κ × ν)) (g : List (κ × List ν)) :
    ∀ x ∈ ((pairs.foldl (fun acc p => addToGroups acc p.1 p.2) g).map
      Prod.fst), x ∈ g.map Prod.fst ∨ x ∈ pairs.map Prod.fst := by
  induction pairs generalizing g with
  | nil => intro x hx; exact Or.inl hx
  | cons p rest ih =>
    intro x hx
    rcases ih (addToGroups g p.1 p.2) x hx with h | h
    · rcases mem_keys_addToGroups h with h | h
      · exact Or.inl h
      · exact Or.inr (by simp [h])
    · exact Or.inr (by simp [h])

theorem supGroups_key_shape (bl : List BThreat) :
    ∀ s ts, (s, ts) ∈ supGroups bl → ∃ a b, s = NetId.v4 a b 0 0 16 := by
  intro s ts hmem
  have hk : s ∈ (supGroups bl).map Prod.fst :=
    List.mem_map.mpr ⟨(s, ts), hmem, rfl⟩
  rcases keys_foldl_addToGroups_sub _ [] s hk with h | h
  · cases h
  · obtain ⟨q, hq, hqs⟩ := List.mem_map.mp h
    obtain ⟨t, ht, hts⟩ := List.mem_filterMap.mp hq
    obtain ⟨s', hs', he⟩ := Option.map_eq_some'.mp hts
    have hq1 : q.1 = s' := by rw [← he]
    rw [← hqs, hq1]
    cases ht2 : t.id with
    | net n =>
      simp only [supKey, ht2] at hs'
      exact sup16_shape hs'
    | addr ip =>
      simp only [supKey, ht2] at hs'
      cases hs'

theorem supGroups_keys_nodup (bl : List BThreat) :
    ((supGroups bl).map Prod.fst).Nodup :=
  nodup_keys_foldl_addToGroups _ [] (by simp)

theorem targetOf_eq_idTarget {t : BThreat}
    (h : ¬(t.ip_count = some 1 ∧ t.details ≠ [])) :
    targetOf t = idTarget t.id := by
  rw [targetOf, if_neg h]
  cases t.id <;> rfl

theorem idTarget_inj {x y : ThreatId} (h : idTarget x = idTarget y) :
    x = y := by
  cases x <;> cases y <;> simp [idTarget] at h <;> simp [h]

theorem phase1_target_mem (accept : Target → Bool)
    (gs : List (NetId × List BThreat)) (x : Target)
    (h : x ∈ (phase1Subs accept gs).map Prod.fst) :
    ∃ s ts, (s, ts) ∈ gs ∧ 2 ≤ ts.length ∧ x = Target.net s := by
  rw [phase1Subs_map_fst] at h
  obtain ⟨g, hg, hx⟩ := List.mem_map.mp h
  have hf := List.mem_filter.mp hg
  refine ⟨g.1, g.2, ?_, by simpa using hf.2, hx.symm⟩
  simpa using hf.1

theorem phase1_target_mem_of (accept : Target → Bool)
    (gs : List (NetId × List BThreat)) (s : NetId) (ts : List BThreat)
    (hmem : (s, ts) ∈ gs) (h2 : 2 ≤ ts.length) :
    Target.net s ∈ (phase1Subs accept gs).map Prod.fst := by
  rw [phase1Subs_map_fst]
  exact List.mem_map.mpr ⟨(s, ts),
    List.mem_filter.mpr ⟨hmem, by simpa using h2⟩, rfl⟩

theorem phase2_target_net (accept : Target → Bool) (cov : List ThreatId)
    (l : List BThreat) (n : NetId)
    (h : Target.net n ∈ (phase2Subs accept cov l).map Prod.fst) :
    ∃ t ∈ l, t.id ∉ cov ∧ t.should_block = true ∧
      t.id = ThreatId.net n := by
  rw [phase2Subs_map_fst] at h
  obtain ⟨t, ht, htg⟩ := List.mem_map.mp h
  have hf := List.mem_filter.mp ht
  have hc : t.id ∉ cov ∧ t.should_block = true := by
    have := hf.2
    simp only [Bool.and_eq_true, Bool.not_eq_true', decide_eq_false_iff_not]
      at this
    exact this
  refine ⟨t, hf.1, hc.1, hc.2, ?_⟩
  by_cases hd : t.ip_count = some 1 ∧ t.details ≠ []
  · rw [targetOf, if_pos hd] at htg
    cases htg
  · rw [targetOf_eq_idTarget hd] at htg
    cases hid : t.id with
    | net m =>
      rw [hid] at htg
      simp only [idTarget, Target.net.injEq] at htg
      rw [htg]
    | addr ip =>
      rw [hid] at htg
      simp [idTarget] at htg

theorem mem_take_sortThreats (threats : List BThreat) (topN : Nat)
    (t : BThreat) (h : t ∈ (sortThreatsDesc threats).take topN) :
    t ∈ threats :=
  (threats.mergeSort_perm _).mem_iff.mp (List.take_subset _ _ h)

/-! ### Claim C2: supernet consolidation -/

/-- C2 (amended): in every run of the blocking phase, a /16 supernet grouping
at least two blockable IPv4 /24 threats receives exactly one submission; when
the collaborator accepts that submission every contained /24 is marked
covered; a covered threat id is never individually submitted in the same run;
a /16 grouping exactly one blockable /24 never receives a /16 submission; and
a /24 network target is submitted individually only for a top-N threat marked
blockable. -/
theorem C2_supernet_consolidation (accept : Target → Bool)
    (threats : List BThreat) (topN : Nat)
    (hid : (threats.map (fun t => t.id)).Nodup)
    (hshape : ∀ t ∈ threats, idOk t.id = true) :
    (∀ s ts, (s, ts) ∈ supGroups (blockableThreats threats) →
      2 ≤ ts.length →
      (((runBlocking accept threats topN).submissions.map Prod.fst).count
        (Target.net s) = 1)
      ∧ (accept (Target.net s) = true →
          ∀ t ∈ ts, t.id ∈ (runBlocking accept threats topN).covered))
    ∧ (∀ t ∈ threats, t.id ∈ (runBlocking accept threats topN).covered →
        ∀ n, t.id = ThreatId.net n →
          Target.net n ∉
            (runBlocking accept threats topN).submissions.map Prod.fst)
    ∧ (∀ s ts, (s, ts) ∈ supGroups (blockableThreats threats) →
        ts.length = 1 →
        Target.net s ∉
          (runBlocking accept threats topN).submissions.map Prod.fst)
    ∧ (∀ t ∈ threats, ∀ n, t.id = ThreatId.net n →
        Target.net n ∈
          (runBlocking accept threats topN).submissions.map Prod.fst →
        t ∈ (sortThreatsDesc threats).take topN ∧
          t.should_block = true) := by
  have hsubs : (runBlocking accept threats topN).submissions.map Prod.fst =
      (phase1Subs accept (supGroups (blockableThreats threats))).map
        Prod.fst ++
      (phase2Subs accept
        (phase1Cov accept (supGroups (blockableThreats threats)))
        ((sortThreatsDesc threats).take topN)).map Prod.fst := by
    simp [runBlocking]
  have hcov : (runBlocking accept threats topN).covered =
      phase1Cov accept (supGroups (blockableThreats threats)) := rfl
  have hkeys := supGroups_keys_nodup (blockableThreats threats)
  -- a /16 group key never appears as a phase-2 target for well-shaped threats
  have hno16 : ∀ a b : Nat,
      Target.net (NetId.v4 a b 0 0 16) ∉
        (phase2Subs accept
          (phase1Cov accept (supGroups (blockableThreats threats)))
          ((sortThreatsDesc threats).take topN)).map Prod.fst := by
    intro a b hmem
    obtain ⟨t, ht, -, -, hid16⟩ := phase2_target_net _ _ _ _ hmem
    have := hshape t (mem_take_sortThreats threats topN t ht)
    rw [hid16] at this
    simp [idOk] at this
  constructor
  · intro s ts hmem h2
    obtain ⟨a, b, hs⟩ := supGroups_key_shape _ s ts hmem
    constructor
    · rw [hsubs, List.count_append]
      have h1 : ((phase1Subs accept
          (supGroups (blockableThreats threats))).map Prod.fst).count
            (Target.net s) = 1 := by
        apply List.count_eq_one_of_mem
        · rw [phase1Subs_map_fst]
          have heq : (fun g : NetId × List BThreat => Target.net g.1) =
              Target.net ∘ Prod.fst := rfl
          rw [heq, ← List.map_map]
          refine List.Nodup.map (fun x y h => ?_) ?_
          · simpa using h
          · exact List.Nodup.sublist
              (List.Sublist.map Prod.fst (List.filter_sublist _)) hkeys
        · exact phase1_target_mem_of accept _ s ts hmem h2
      have h0 : ((phase2Subs accept
          (phase1Cov accept (supGroups (blockableThreats threats)))
          ((sortThreatsDesc threats).take topN)).map Prod.fst).count
            (Target.net s) = 0 := by
        apply List.count_eq_zero_of_not_mem
        rw [hs]
        exact hno16 a b
      rw [h1, h0]
    · intro ha t ht
      rw [hcov]
      exact mem_phase1Cov_of accept _ s ts hmem h2 ha t ht
  refine ⟨?_, ?_, ?_⟩
  · intro t ht hcmem n hidn hmem
    rw [hsubs] at hmem
    rcases List.mem_append.mp hmem with hmem | hmem
    · obtain ⟨s, ts, hg, -, hx⟩ := phase1_target_mem accept _ _ hmem
      obtain ⟨a, b, hs⟩ := supGroups_key_shape _ s ts hg
      have := hshape t ht
      rw [hidn] at this
      rw [hs] at hx
      have hn : n = NetId.v4 a b 0 0 16 := by
        simpa using hx
      rw [hn] at this
      simp [idOk] at this
    · obtain ⟨u, hu, hucov, -, huid⟩ := phase2_target_net _ _ _ _ hmem
      rw [hcov] at hcmem
      rw [← hidn] at huid
      rw [huid] at hucov
      exact hucov hcmem
  · intro s ts hmem hlen hx
    obtain ⟨a, b, hs⟩ := supGroups_key_shape _ s ts hmem
    rw [hsubs] at hx
    rcases List.mem_append.mp hx with hx | hx
    · obtain ⟨k, ts2, hg2, h22, hxk⟩ := phase1_target_mem accept _ _ hx
      have hk : s = k := by simpa using hxk
      rw [← hk] at hg2
      have := assoc_value_unique _ hkeys hmem hg2
      rw [← this] at h22
      omega
    · rw [hs] at hx
      exact hno16 a b hx
  · intro t ht n hidn hmem
    rw [hsubs] at hmem
    rcases List.mem_append.mp hmem with hmem | hmem
    · obtain ⟨s, ts, hg, -, hx⟩ := phase1_target_mem accept _ _ hmem
      obtain ⟨a, b, hs⟩ := supGroups_key_shape _ s ts hg
      have := hshape t ht
      rw [hidn] at this
      rw [hs] at hx
      have hn : n = NetId.v4 a b 0 0 16 := by simpa using hx
      rw [hn] at this
      simp [idOk] at this
    · obtain ⟨u, hu, -, hub, huid⟩ := phase2_target_net _ _ _ _ hmem
      have hut : u ∈ threats := mem_take_sortThreats threats topN u hu
      have : u = t := by
        apply List.inj_on_of_nodup_map hid hut ht
        rw [huid, hidn]
      rw [← this]
      exact ⟨hu, hub⟩

unseal List.merge List.mergeSort in
/-- C2 counterexample to the claim as stated: with a collaborator that rejects
the /16 submission, the two contained blockable /24 threats are not marked
covered and one of them is individually submitted in the same run. -/
theorem C2_supernet_counterexample :
    (NetId.v4 10 0 0 0 16, [cexThreat1, cexThreat2]) ∈
      supGroups (blockableThreats [cexThreat1, cexThreat2])
    ∧ cexThreat1.id ∉
        (runBlocking cexAccept [cexThreat1, cexThreat2] 10).covered
    ∧ Target.net (NetId.v4 10 0 0 0 24) ∈
        (runBlocking cexAccept [cexThreat1, cexThreat2] 10).submissions.map
          Prod.fst := by
  decide

theorem C2_supernet_consolidation_witness :
    (((runBlocking (fun _ => true) [cexThreat1, cexThreat2] 10).submissions.map
        Prod.fst).count (Target.net (NetId.v4 10 0 0 0 16)) = 1)
    ∧ ((fun _ => true : Target → Bool) (Target.net (NetId.v4 10 0 0 0 16)) =
        true →
        ∀ t ∈ [cexThreat1, cexThreat2],
          t.id ∈ (runBlocking (fun _ => true)
            [cexThreat1, cexThreat2] 10).covered) :=
  (C2_supernet_consolidation (fun _ => true) [cexThreat1, cexThreat2] 10
    (by decide) (by decide)).1 (NetId.v4 10 0 0 0 16)
    [cexThreat1, cexThreat2] (by decide) (by decide)

/-! ### Claim C9: submission failure isolation -/

theorem phase2_no16_target (accept : Target → Bool) (cov : List ThreatId)
    (threats : List BThreat) (topN : Nat)
    (hshape : ∀ t ∈ threats, idOk t.id = true) :
    ∀ a b : Nat, Target.net (NetId.v4 a b 0 0 16) ∉
      (phase2Subs accept cov ((sortThreatsDesc threats).take topN)).map
        Prod.fst := by
  intro a b hmem
  obtain ⟨t, ht, -, -, hid16⟩ := phase2_target_net _ _ _ _ hmem
  have := hshape t (mem_take_sortThreats threats topN t ht)
  rw [hid16] at this
  simp [idOk] at this

/-- C9: in every run of the blocking phase, a rejected submission never
prevents any remaining submission (a more-accepting collaborator yields a
subset of the submitted targets), every target is submitted at most once per
run, and the reported count equals the number of accepted submissions. -/
theorem C9_submission_isolation (threats : List BThreat) (topN : Nat)
    (hid : (threats.map (fun t => t.id)).Nodup)
    (hshape : ∀ t ∈ threats, idOk t.id = true)
    (hdead : ∀ t ∈ threats, ¬(t.ip_count = some 1 ∧ t.details ≠ []))
    (accept accept' : Target → Bool)
    (hmono : ∀ tgt, accept tgt = true → accept' tgt = true) :
    ((runBlocking accept threats topN).submissions.map Prod.fst).Nodup
    ∧ (runBlocking accept threats topN).count =
        ((runBlocking accept threats topN).submissions.filter
          (fun p => p.2)).length
    ∧ ∀ tgt, tgt ∈ (runBlocking accept' threats topN).submissions.map
          Prod.fst →
        tgt ∈ (runBlocking accept threats topN).submissions.map Prod.fst := by
  have hkeys := supGroups_keys_nodup (blockableThreats threats)
  have hsubs : ∀ acc : Target → Bool,
      (runBlocking acc threats topN).submissions.map Prod.fst =
      (phase1Subs acc (supGroups (blockableThreats threats))).map Prod.fst ++
      (phase2Subs acc
        (phase1Cov acc (supGroups (blockableThreats threats)))
        ((sortThreatsDesc threats).take topN)).map Prod.fst := by
    intro acc
    simp [runBlocking]
  refine ⟨?_, ?_, ?_⟩
  · rw [hsubs accept]
    have h1 : ((phase1Subs accept
        (supGroups (blockableThreats threats))).map Prod.fst).Nodup := by
      rw [phase1Subs_map_fst]
      have heq : (fun g : NetId × List BThreat => Target.net g.1) =
          Target.net ∘ Prod.fst := rfl
      rw [heq, ← List.map_map]
      refine List.Nodup.map (fun x y h => by simpa using h) ?_
      exact List.Nodup.sublist
        (List.Sublist.map Prod.fst (List.filter_sublist _)) hkeys
    have h2 : ((phase2Subs accept
        (phase1Cov accept (supGroups (blockableThreats threats)))
        ((sortThreatsDesc threats).take topN)).map Prod.fst).Nodup := by
      rw [phase2Subs_map_fst]
      have hsubl : ((sortThreatsDesc threats).take topN).filter
          (fun t => !decide (t.id ∈ phase1Cov accept
            (supGroups (blockableThreats threats))) && t.should_block)
          |>.Sublist (sortThreatsDesc threats) :=
        (List.filter_sublist _).trans (List.take_sublist _ _)
      have hmemthreats : ∀ t ∈ ((sortThreatsDesc threats).take topN).filter
          (fun t => !decide (t.id ∈ phase1Cov accept
            (supGroups (blockableThreats threats))) && t.should_block),
          t ∈ threats := fun t ht =>
        (threats.mergeSort_perm _).mem_iff.mp (hsubl.mem ht)
      rw [List.map_congr_left
        (fun t ht => targetOf_eq_idTarget (hdead t (hmemthreats t ht)))]
      have heq2 : (fun t : BThreat => idTarget t.id) =
          idTarget ∘ (fun t => t.id) := rfl
      rw [heq2, ← List.map_map]
      refine List.Nodup.map (fun x y h => idTarget_inj h) ?_
      refine List.Nodup.sublist
        (List.Sublist.map (fun t => t.id) hsubl) ?_
      exact (((threats.mergeSort_perm _).map (fun t => t.id)).nodup_iff).mpr
        hid
    rw [List.nodup_append]
    refine ⟨h1, h2, ?_⟩
    intro x hx
    obtain ⟨s, ts, hg, -, hxs⟩ := phase1_target_mem accept _ _ hx
    obtain ⟨a, b, hs⟩ := supGroups_key_shape _ s ts hg
    rw [hxs, hs]
    exact phase2_no16_target accept _ threats topN hshape a b
  · have hc : (runBlocking accept threats topN).count =
        phase1Count accept (supGroups (blockableThreats threats)) +
        phase2Count accept
          (phase1Cov accept (supGroups (blockableThreats threats)))
          ((sortThreatsDesc threats).take topN) := rfl
    have hs2 : (runBlocking accept threats topN).submissions =
        phase1Subs accept (supGroups (blockableThreats threats)) ++
        phase2Subs accept
          (phase1Cov accept (supGroups (blockableThreats threats)))
          ((sortThreatsDesc threats).take topN) := rfl
    rw [hc, hs2, phase1Count_eq, phase2Count_eq, List.filter_append,
      List.length_append]
  · intro tgt htgt
    rw [hsubs accept'] at htgt
    rw [hsubs accept]
    rcases List.mem_append.mp htgt with h | h
    · refine List.mem_append.mpr (Or.inl ?_)
      rw [phase1Subs_map_fst] at h ⊢
      exact h
    · refine List.mem_append.mpr (Or.inr ?_)
      rw [phase2Subs_map_fst] at h ⊢
      obtain ⟨t, ht, hx⟩ := List.mem_map.mp h
      have hf := List.mem_filter.mp ht
      have hflags := hf.2
      simp only [Bool.and_eq_true, Bool.not_eq_true',
        decide_eq_false_iff_not] at hflags
      refine List.mem_map.mpr ⟨t, List.mem_filter.mpr ⟨hf.1, ?_⟩, hx⟩
      simp only [Bool.and_eq_true, Bool.not_eq_true',
        decide_eq_false_iff_not]
      refine ⟨fun hcv => hflags.1 ?_, hflags.2⟩
      exact phase1Cov_mono accept accept' hmono _ _ hcv

theorem C9_submission_isolation_witness :
    (((runBlocking cexAccept [cexThreat1, cexThreat2] 10).submissions.map
        Prod.fst).Nodup)
    ∧ (runBlocking cexAccept [cexThreat1, cexThreat2] 10).count =
        (((runBlocking cexAccept [cexThreat1, cexThreat2] 10)).submissions.filter
          (fun p => p.2)).length
    ∧ ∀ tgt, tgt ∈ (runBlocking (fun _ => true)
          [cexThreat1, cexThreat2] 10).submissions.map Prod.fst →
        tgt ∈ (runBlocking cexAccept
          [cexThreat1, cexThreat2] 10).submissions.map Prod.fst :=
  C9_submission_isolation [cexThreat1, cexThreat2] 10 (by decide) (by decide)
    (by decide) cexAccept (fun _ => true) (fun tgt h => rfl)

/-! ### Claim C8: lossy decoding in the reverse reader -/

theorem decodeStep_length {b0 : Nat} {rest : List Nat} {c : Nat}
    {restAfter : List Nat} (h : decodeStep b0 rest = some (c, restAfter)) :
    restAfter.length ≤ rest.length := by
  simp only [decodeStep] at h
  split_ifs at h with h1 h2 h3 h4
  · cases h
    exact le_refl _
  · match rest with
    | [] => cases h
    | b1 :: rest2 =>
      simp only [] at h
      split_ifs at h
      cases h
      simp only [List.length_cons]
      omega
  · match rest with
    | [] => cases h
    | [b1] => cases h
    | b1 :: b2 :: rest3 =>
      simp only [] at h
      split_ifs at h
      cases h
      simp only [List.length_cons]
      omega
  · match rest with
    | [] => cases h
    | [b1] => cases h
    | [b1, b2] => cases h
    | b1 :: b2 :: b3 :: rest4 =>
      simp only [] at h
      split_ifs at h
      cases h
      simp only [List.length_cons]
      omega

theorem igGo_fuel (fuel : Nat) :
    ∀ (fuel2 : Nat) (bs : List Nat), bs.length ≤ fuel →
      bs.length ≤ fuel2 → igGo fuel bs = igGo fuel2 bs := by
  induction fuel with
  | zero =>
    intro fuel2 bs h1 h2
    match bs with
    | [] => cases fuel2 <;> rfl
    | b :: rest => simp at h1
  | succ f ih =>
    intro fuel2 bs h1 h2
    match bs with
    | [] => cases fuel2 <;> rfl
    | b0 :: rest =>
      match fuel2 with
      | 0 => simp at h2
      | f2 + 1 =>
        rw [igGo, igGo]
        cases hs : decodeStep b0 rest with
        | some p =>
          obtain ⟨c, restAfter⟩ := p
          have hl := decodeStep_length hs
          simp only [List.length_cons] at h1 h2
          show c :: igGo f restAfter = c :: igGo f2 restAfter
          rw [ih f2 restAfter (by omega) (by omega)]
        | none =>
          simp only [List.length_cons] at h1 h2
          show igGo f rest = igGo f2 rest
          exact ih f2 rest (by omega) (by omega)

theorem dsGo_fuel (fuel : Nat) :
    ∀ (fuel2 : Nat) (bs : List Nat), bs.length ≤ fuel →
      bs.length ≤ fuel2 → dsGo fuel bs = dsGo fuel2 bs := by
  induction fuel with
  | zero =>
    intro fuel2 bs h1 h2
    match bs with
    | [] => cases fuel2 <;> rfl
    | b :: rest => simp at h1
  | succ f ih =>
    intro fuel2 bs h1 h2
    match bs with
    | [] => cases fuel2 <;> rfl
    | b0 :: rest =>
      match fuel2 with
      | 0 => simp at h2
      | f2 + 1 =>
        rw [dsGo, dsGo]
        cases hs : decodeStep b0 rest with
        | some p =>
          obtain ⟨c, restAfter⟩ := p
          have hl := decodeStep_length hs
          simp only [List.length_cons] at h1 h2
          show (dsGo f restAfter).map (fun cs => c :: cs) =
            (dsGo f2 restAfter).map (fun cs => c :: cs)
          rw [ih f2 restAfter (by omega) (by omega)]
        | none => rfl

theorem ignore_cons_some {b0 : Nat} {rest : List Nat} {c : Nat}
    {restAfter : List Nat} (h : decodeStep b0 rest = some (c, restAfter)) :
    utf8DecodeIgnore (b0 :: rest) = c :: utf8DecodeIgnore restAfter := by
  rw [utf8DecodeIgnore, utf8DecodeIgnore, List.length_cons, igGo, h]
  have hl := decodeStep_length h
  show c :: igGo rest.length restAfter = c :: igGo restAfter.length restAfter
  rw [igGo_fuel rest.length restAfter.length restAfter hl (le_refl _)]

theorem ignore_cons_none {b0 : Nat} {rest : List Nat}
    (h : decodeStep b0 rest = none) :
    utf8DecodeIgnore (b0 :: rest) = utf8DecodeIgnore rest := by
  rw [utf8DecodeIgnore, utf8DecodeIgnore, List.length_cons, igGo, h]

theorem strict_cons_some {b0 : Nat} {rest : List Nat} {c : Nat}
    {restAfter : List Nat} (h : decodeStep b0 rest = some (c, restAfter)) :
    utf8DecodeStrict (b0 :: rest) =
      (utf8DecodeStrict restAfter).map (fun cs => c :: cs) := by
  rw [utf8DecodeStrict, utf8DecodeStrict, List.length_cons, dsGo, h]
  have hl := decodeStep_length h
  show (dsGo rest.length restAfter).map (fun cs => c :: cs) =
    (dsGo restAfter.length restAfter).map (fun cs => c :: cs)
  rw [dsGo_fuel rest.length restAfter.length restAfter hl (le_refl _)]

theorem strict_cons_none {b0 : Nat} {rest : List Nat}
    (h : decodeStep b0 rest = none) :
    utf8DecodeStrict (b0 :: rest) = none := by
  rw [utf8DecodeStrict, List.length_cons, dsGo, h]

theorem step_ascii (b0 : Nat) (h : b0 < 0x80) (bs : List Nat) :
    decodeStep b0 bs = some (b0, bs) := by
  simp only [decodeStep]
  rw [if_pos h]

theorem step_two (b0 b1 : Nat) (bs : List Nat)
    (h0 : 0xC2 ≤ b0 ∧ b0 ≤ 0xDF) (h1 : isCont b1 = true) :
    decodeStep b0 (b1 :: bs) =
      some ((b0 - 0xC0) * 0x40 + (b1 - 0x80), bs) := by
  simp only [decodeStep]
  rw [if_neg (by omega)]
  rw [if_pos (by simp only [Bool.and_eq_true, decide_eq_true_eq]; omega)]
  simp only [h1, if_true]

theorem step_three (b0 b1 b2 : Nat) (bs : List Nat)
    (h0 : 0xE0 ≤ b0 ∧ b0 ≤ 0xEF) (h1 : cont3Ok b0 b1 = true)
    (h2 : isCont b2 = true) :
    decodeStep b0 (b1 :: b2 :: bs) =
      some ((b0 - 0xE0) * 0x1000 + (b1 - 0x80) * 0x40 + (b2 - 0x80),
        bs) := by
  simp only [decodeStep]
  rw [if_neg (by omega)]
  rw [if_neg (by simp only [Bool.and_eq_true, decide_eq_true_eq]; omega)]
  rw [if_pos (by simp only [Bool.and_eq_true, decide_eq_true_eq]; omega)]
  simp only [h1, h2, Bool.and_self, if_true]

theorem step_four (b0 b1 b2 b3 : Nat) (bs : List Nat)
    (h0 : 0xF0 ≤ b0 ∧ b0 ≤ 0xF4) (h1 : cont4Ok b0 b1 = true)
    (h2 : isCont b2 = true) (h3 : isCont b3 = true) :
    decodeStep b0 (b1 :: b2 :: b3 :: bs) =
      some ((b0 - 0xF0) * 0x40000 + (b1 - 0x80) * 0x1000 +
        (b2 - 0x80) * 0x40 + (b3 - 0x80), bs) := by
  simp only [decodeStep]
  rw [if_neg (by omega)]
  rw [if_neg (by simp only [Bool.and_eq_true, decide_eq_true_eq]; omega)]
  rw [if_neg (by simp only [Bool.and_eq_true, decide_eq_true_eq]; omega)]
  rw [if_pos (by simp only [Bool.and_eq_true, decide_eq_true_eq]; omega)]
  simp only [h1, h2, h3, Bool.and_self, if_true]

theorem step_ff (bs : List Nat) : decodeStep 0xFF bs = none := by
  simp only [decodeStep]
  rw [if_neg (by omega)]
  rw [if_neg (by simp)]
  rw [if_neg (by simp)]
  rw [if_neg (by simp)]

theorem step_encodeChar (c : Nat) (hc : ScalarValue c) (bs : List Nat) :
    ∃ tail, utf8EncodeChar c ++ bs = tail ∧
      ∃ b0 rest, tail = b0 :: rest ∧ decodeStep b0 rest = some (c, bs) := by
  obtain ⟨hlt, hsur⟩ := hc
  rw [utf8EncodeChar]
  by_cases h1 : c < 0x80
  · rw [if_pos h1]
    exact ⟨_, rfl, c, bs, rfl, step_ascii c h1 bs⟩
  · rw [if_neg h1]
    by_cases h2 : c < 0x800
    · rw [if_pos h2]
      refine ⟨_, rfl, _, _, rfl, ?_⟩
      show decodeStep (0xC0 + c / 0x40) ((0x80 + c % 0x40) :: bs) =
        some (c, bs)
      have h := step_two (0xC0 + c / 0x40) (0x80 + c % 0x40) bs
        (by omega)
        (by simp only [isCont, Bool.and_eq_true, decide_eq_true_eq]; omega)
      rw [h]
      congr 2
      omega
    · rw [if_neg h2]
      by_cases h3 : c < 0x10000
      · rw [if_pos h3]
        refine ⟨_, rfl, _, _, rfl, ?_⟩
        show decodeStep (0xE0 + c / 0x1000)
          ((0x80 + c / 0x40 % 0x40) :: (0x80 + c % 0x40) :: bs) =
            some (c, bs)
        have hc3 : cont3Ok (0xE0 + c / 0x1000)
            (0x80 + (c / 0x40) % 0x40) = true := by
          rw [cont3Ok]
          split_ifs with he hd
          all_goals simp only [Bool.and_eq_true, decide_eq_true_eq, isCont]
          · omega
          · omega
          · omega
        have h := step_three (0xE0 + c / 0x1000) (0x80 + (c / 0x40) % 0x40)
          (0x80 + c % 0x40) bs (by omega) hc3
          (by simp only [isCont, Bool.and_eq_true, decide_eq_true_eq]; omega)
        rw [h]
        congr 2
        omega
      · rw [if_neg h3]
        refine ⟨_, rfl, _, _, rfl, ?_⟩
        show decodeStep (0xF0 + c / 0x40000)
          ((0x80 + c / 0x1000 % 0x40) :: (0x80 + c / 0x40 % 0x40) ::
            (0x80 + c % 0x40) :: bs) = some (c, bs)
        have hc4 : cont4Ok (0xF0 + c / 0x40000)
            (0x80 + (c / 0x1000) % 0x40) = true := by
          rw [cont4Ok]
          split_ifs with he hd
          all_goals simp only [Bool.and_eq_true, decide_eq_true_eq, isCont]
          · omega
          · omega
          · omega
        have h := step_four (0xF0 + c / 0x40000) (0x80 + (c / 0x1000) % 0x40)
          (0x80 + (c / 0x40) % 0x40) (0x80 + c % 0x40) bs (by omega) hc4
          (by simp only [isCont, Bool.and_eq_true, decide_eq_true_eq]; omega)
          (by simp only [isCont, Bool.and_eq_true, decide_eq_true_eq]; omega)
        rw [h]
        congr 2
        omega

theorem ignore_encodeChar (c : Nat) (hc : ScalarValue c) (bs : List Nat) :
    utf8DecodeIgnore (utf8EncodeChar c ++ bs) =
      c :: utf8DecodeIgnore bs := by
  obtain ⟨tail, htail, b0, rest, hcons, hstep⟩ := step_encodeChar c hc bs
  rw [htail, hcons]
  exact ignore_cons_some hstep

theorem strict_encodeChar (c : Nat) (hc : ScalarValue c) (bs : List Nat) :
    utf8DecodeStrict (utf8EncodeChar c ++ bs) =
      (utf8DecodeStrict bs).map (fun cs => c :: cs) := by
  obtain ⟨tail, htail, b0, rest, hcons, hstep⟩ := step_encodeChar c hc bs
  rw [htail, hcons]
  exact strict_cons_some hstep

theorem strict_encode_bad (pre bs : List Nat)
    (hpre : ∀ c ∈ pre, ScalarValue c) :
    utf8DecodeStrict (utf8Encode pre ++ 0xFF :: bs) = none := by
  induction pre with
  | nil =>
    simp only [utf8Encode, List.flatMap_nil, List.nil_append]
    exact strict_cons_none (step_ff bs)
  | cons c rest ih =>
    simp only [utf8Encode, List.flatMap_cons, List.append_assoc]
    rw [strict_encodeChar c (hpre c (List.mem_cons_self c rest)) _]
    rw [show (rest.flatMap utf8EncodeChar : List Nat) =
      utf8Encode rest from rfl]
    rw [ih (fun x hx => hpre x (List.mem_cons_of_mem c hx))]
    rfl

theorem ignore_encode (pre bs : List Nat)
    (hpre : ∀ c ∈ pre, ScalarValue c) :
    utf8DecodeIgnore (utf8Encode pre ++ bs) =
      pre ++ utf8DecodeIgnore bs := by
  induction pre with
  | nil => simp [utf8Encode]
  | cons c rest ih =>
    simp only [utf8Encode, List.flatMap_cons, List.append_assoc]
    rw [ignore_encodeChar c (hpre c (List.mem_cons_self c rest)) _]
    rw [show (rest.flatMap utf8EncodeChar : List Nat) =
      utf8Encode rest from rfl]
    rw [ih (fun x hx => hpre x (List.mem_cons_of_mem c hx))]
    rfl

/-- C8 (amended): a block made of validly encoded text followed by an
undecodable byte fails strict decoding; the reader recovers by lossy decoding
in which the undecodable byte is dropped — nothing is substituted in its
place — and decoding continues over the remaining bytes. -/
theorem C8_lossy_recovery (pre bs : List Nat)
    (hpre : ∀ c ∈ pre, ScalarValue c) :
    utf8DecodeStrict (utf8Encode pre ++ 0xFF :: bs) = none
    ∧ decodeBuffer (utf8Encode pre ++ 0xFF :: bs) =
        pre ++ utf8DecodeIgnore bs := by
  have hs := strict_encode_bad pre bs hpre
  refine ⟨hs, ?_⟩
  rw [decodeBuffer, hs]
  rw [ignore_encode pre (0xFF :: bs) hpre]
  rw [show utf8DecodeIgnore (0xFF :: bs) = utf8DecodeIgnore bs from
    ignore_cons_none (step_ff bs)]

theorem C8_lossy_recovery_witness :
    utf8DecodeStrict (utf8Encode [104, 233] ++ 0xFF :: [10]) = none
    ∧ decodeBuffer (utf8Encode [104, 233] ++ 0xFF :: [10]) =
        [104, 233] ++ utf8DecodeIgnore [10] :=
  C8_lossy_recovery [104, 233] [10] (by decide)

/-- C8 counterexample to the claim as stated: the block `[104, 105, 255, 10]`
fails strict decoding, and the recovery removes the undecodable byte rather
than replacing it — no replacement character `0xFFFD` appears in the
output. -/
theorem C8_replacement_counterexample :
    utf8DecodeStrict [104, 105, 255, 10] = none
    ∧ decodeBuffer [104, 105, 255, 10] = [104, 105, 10]
    ∧ (0xFFFD ∉ decodeBuffer [104, 105, 255, 10])
    ∧ decodeBuffer [104, 105, 255, 10] ≠ [104, 105, 0xFFFD, 10] := by
  decide

/-! ### Claim C10: whitelist loading -/

/-- C10: for a path that names no file the call returns `0` and leaves the
whitelist unchanged; for an existing readable file it replaces the whitelist
with the file's stripped non-empty, non-comment lines and returns their
count, which is the number of such lines in the file. -/
theorem C10_whitelist_load (fs : String → Option (Option (List String)))
    (wl : List String) (path : String) :
    (fs path = none → loadWhitelist fs wl path = (0, wl))
    ∧ ∀ fileLines, fs path = some (some fileLines) →
        (loadWhitelist fs wl path).2 =
          (fileLines.map String.trim).filter
            (fun l => !(l == "") && !(l.startsWith "#"))
        ∧ (loadWhitelist fs wl path).1 =
            fileLines.countP
              (fun l => !(l.trim == "") && !(l.trim.startsWith "#"))
        ∧ (loadWhitelist fs wl path).1 =
            (loadWhitelist fs wl path).2.length := by
  constructor
  · intro h
    rw [loadWhitelist, h]
  · intro fileLines h
    rw [loadWhitelist, h]
    refine ⟨rfl, ?_, rfl⟩
    show ((fileLines.map String.trim).filter
      (fun l => !(l == "") && !(l.startsWith "#"))).length = _
    rw [← List.countP_eq_length_filter, List.countP_map]
    rfl

theorem C10_whitelist_load_witness :
    loadWhitelist (fun _ => none) ["9.9.9.9"] "wl.txt" = (0, ["9.9.9.9"])
    ∧ (loadWhitelist
        (fun _ => some (some ["1.2.3.4", "", "# comment", " 5.6.7.8 "]))
        ["9.9.9.9"] "wl.txt").2 =
      ((["1.2.3.4", "", "# comment", " 5.6.7.8 "].map String.trim).filter
        (fun l => !(l == "") && !(l.startsWith "#")))
    ∧ (loadWhitelist
        (fun _ => some (some ["1.2.3.4", "", "# comment", " 5.6.7.8 "]))
        ["9.9.9.9"] "wl.txt").1 =
      ["1.2.3.4", "", "# comment", " 5.6.7.8 "].countP
        (fun l => !(l.trim == "") && !(l.trim.startsWith "#")) := by
  refine ⟨(C10_whitelist_load (fun _ => none) ["9.9.9.9"] "wl.txt").1 rfl,
    ?_, ?_⟩
  · exact ((C10_whitelist_load
      (fun _ => some (some ["1.2.3.4", "", "# comment", " 5.6.7.8 "]))
      ["9.9.9.9"] "wl.txt").2 _ rfl).1
  · exact ((C10_whitelist_load
      (fun _ => some (some ["1.2.3.4", "", "# comment", " 5.6.7.8 "]))
      ["9.9.9.9"] "wl.txt").2 _ rfl).2.1

end BotStats
